import Mathlib

set_option maxHeartbeats 1600000

/-!
Shallow embedding of the learning-style plugin's style store and its
maintenance engine (`learning_style/data_manager.py`,
`learning_style/scheduler.py`, `learning_style/style_selector.py`).

Conventions of the embedding:
- Python timestamps (`asyncio` loop time, a float) are modelled as `Rat`.
- Proficiency values are Python ints, modelled as `Int`.
- Python dicts (insertion ordered) are modelled as association lists;
  `dictSet` updates the first binding in place and appends a fresh key at
  the end, exactly like CPython dict assignment.
- `DataManager`'s mutable attributes are gathered in `DMState`; the two
  backing files are modelled by the map value they hold, since the saves
  serialize the whole in-memory map.  A file write that may fail is given
  its outcome as an explicit `writeOk : Bool` argument.
- The random values produced by `random.uniform(0, current_total)` are an
  explicit stream `draws : Nat → Rat`, one value per loop iteration.
-/

/-- A style record, as stored in `styles.json`:
`{content, type, proficiency, created_at, last_updated}`. -/
structure Style where
  content : String
  type : String
  proficiency : Int
  created_at : Rat
  last_updated : Rat
deriving DecidableEq

/-- A chat message, as stored in `chat_history.json`. -/
structure ChatMessage where
  sender : String
  content : String
  timestamp : Rat
deriving DecidableEq

/-- Python `d.get(k)` on an insertion-ordered dict modelled as an
association list. -/
def dictGet {α : Type} (m : List (String × α)) (k : String) : Option α :=
  match m with
  | [] => none
  | (k', v) :: rest => if k' = k then some v else dictGet rest k

/-- Python `d[k] = v`: replaces the first binding of `k` in place, or
appends a new binding at the end when `k` is absent. -/
def dictSet {α : Type} (k : String) (v : α) : List (String × α) → List (String × α)
  | [] => [(k, v)]
  | (k', v') :: rest => if k' = k then (k, v) :: rest else (k', v') :: dictSet k v rest

/-- Python list slicing `l[start:]` for an integer `start`, including the
negative-index convention: `l[-n:]` is the last `n` elements for `n > 0`,
while `l[-0:] = l[0:]` is the whole list. -/
def pySliceFrom {α : Type} (start : Int) (l : List α) : List α :=
  if start < 0 then l.drop (l.length - (-start).toNat) else l.drop start.toNat

/-- Python `int(q)`: truncation toward zero, i.e. the truncated division
of the reduced numerator by the denominator. -/
def pyInt (q : Rat) : Int := q.num.tdiv q.den

/-- The mutable state of a `DataManager`, plus the contents of its two
backing files. `save_timer` records whether a delayed-save task is pending. -/
structure DMState where
  styles : List (String × List Style)
  chat_history : List (String × List ChatMessage)
  dirty_styles : Bool
  dirty_chat_history : Bool
  save_timer : Bool
  styles_file : List (String × List Style)
  chat_history_file : List (String × List ChatMessage)
deriving DecidableEq

/-- Model of `DataManager._schedule_save`: cancels any pending delayed save and
starts a fresh one; afterwards a delayed save is pending. -/
def schedule_save (st : DMState) : DMState := { st with save_timer := true }

/-- Model of `DataManager.save_styles`: on write success the styles map is
serialized to the styles file and the dirty flag cleared; an `IOError` is
caught and logged, leaving the state as it was.  The operation never
raises. -/
def save_styles (writeOk : Bool) (st : DMState) : DMState :=
  if writeOk then { st with styles_file := st.styles, dirty_styles := false } else st

/-- Model of `DataManager.save_chat_history`, same shape as `save_styles`. -/
def save_chat_history (writeOk : Bool) (st : DMState) : DMState :=
  if writeOk then { st with chat_history_file := st.chat_history, dirty_chat_history := false }
  else st

/-- The loop body of `DataManager.add_or_update_style` on one session's
record list: the linear scan bumps the first `(content, type)` match by 10
capped at 100 and refreshes `last_updated`; with no match a fresh record
with proficiency 10 is appended. -/
def upsertStyleList (c t : String) (now : Rat) : List Style → List Style
  | [] => [⟨c, t, 10, now, now⟩]
  | s :: rest =>
    if s.content = c ∧ s.type = t then
      { s with proficiency := min 100 (s.proficiency + 10), last_updated := now } :: rest
    else
      s :: upsertStyleList c t now rest

/-- Model of `DataManager.add_or_update_style`: upserts into the session's list
(creating the session entry if absent), marks the styles domain dirty and
schedules a delayed save. -/
def add_or_update_style (session c t : String) (now : Rat) (st : DMState) : DMState :=
  let lst := (dictGet st.styles session).getD []
  schedule_save { st with
    styles := dictSet session (upsertStyleList c t now lst) st.styles,
    dirty_styles := true }

/-- Model of `DataManager.get_chat_history`: `self.chat_history.get(session_id, [])[-limit:]`. -/
def get_chat_history (session : String) (limit : Int) (st : DMState) : List ChatMessage :=
  pySliceFrom (-limit) ((dictGet st.chat_history session).getD [])

/-- Model of `DataManager.add_message_to_history`. -/
def add_message_to_history (session : String) (msg : ChatMessage) (st : DMState) : DMState :=
  let lst := (dictGet st.chat_history session).getD []
  schedule_save { st with
    chat_history := dictSet session (lst ++ [msg]) st.chat_history,
    dirty_chat_history := true }

/-- Model of `DataManager.clear_chat_history`: only when the session has an entry
does it empty the list, mark dirty and schedule a save. -/
def clear_chat_history (session : String) (st : DMState) : DMState :=
  match dictGet st.chat_history session with
  | some _ => schedule_save { st with
      chat_history := dictSet session [] st.chat_history,
      dirty_chat_history := true }
  | none => st

/-- The decay step applied to one record (the loop body shared by
`Scheduler._perform_decay` and `DataManager.perform_maintenance`):
`decay_amount = int((now - last_updated) / 86400) * decay_rate`; when
positive, proficiency drops by it (floored at 0) and `last_updated`
becomes `now`; otherwise the record is untouched. -/
def decayStyle (now : Rat) (decay_rate : Int) (s : Style) : Style :=
  let time_since_update := now - s.last_updated
  let decay_amount := pyInt (time_since_update / 86400) * decay_rate
  if 0 < decay_amount then
    { s with proficiency := max 0 (s.proficiency - decay_amount), last_updated := now }
  else s

/-- Insert into an ascending-by-proficiency list, after strictly smaller
keys and before greater-or-equal keys (the placement CPython's stable
`sorted` gives an earlier element relative to later equal keys). -/
def insertAsc (x : Style) : List Style → List Style
  | [] => [x]
  | y :: ys => if x.proficiency ≤ y.proficiency then x :: y :: ys else y :: insertAsc x ys

/-- Stable ascending sort by proficiency, modelling
`sorted(styles, key=lambda s: s.get("proficiency", 0))`. -/
def sortAsc : List Style → List Style
  | [] => []
  | x :: xs => insertAsc x (sortAsc xs)

/-- The per-session body of `Scheduler._perform_cleanup` (and of the
cleanup half of `DataManager.perform_maintenance`): drop exhausted
records, then if the survivor count exceeds the cap keep
`sorted_styles[-max_styles:]`. -/
def cleanupList (max_styles : Nat) (styles : List Style) : List Style :=
  if max_styles < (styles.filter (fun s => 0 < s.proficiency)).length then
    pySliceFrom (-(max_styles : Int)) (sortAsc (styles.filter (fun s => 0 < s.proficiency)))
  else styles.filter (fun s => 0 < s.proficiency)

/-- Cleanup applied to every session of the styles map. -/
def cleanupStyles (max_styles : Nat) (m : List (String × List Style)) :
    List (String × List Style) :=
  m.map (fun kv => (kv.1, cleanupList max_styles kv.2))

/-- Decay applied to every record of every session. -/
def decayStyles (now : Rat) (decay_rate : Int) (m : List (String × List Style)) :
    List (String × List Style) :=
  m.map (fun kv => (kv.1, kv.2.map (decayStyle now decay_rate)))

/-- Model of `Scheduler._perform_decay`: decays every record, then immediately
calls `save_styles`. -/
def perform_decay (now : Rat) (decay_rate : Int) (writeOk : Bool) (st : DMState) : DMState :=
  save_styles writeOk { st with styles := decayStyles now decay_rate st.styles }

/-- Model of `Scheduler._perform_cleanup`: evicts exhausted and excess records,
then immediately calls `save_styles`. -/
def perform_cleanup (max_styles : Nat) (writeOk : Bool) (st : DMState) : DMState :=
  save_styles writeOk { st with styles := cleanupStyles max_styles st.styles }

/-- One iteration of `Scheduler._run_maintenance`'s body:
`_perform_decay` followed by `_perform_cleanup`, each with its own write
outcome. -/
def run_maintenance_pass (now : Rat) (decay_rate : Int) (max_styles : Nat)
    (w1 w2 : Bool) (st : DMState) : DMState :=
  perform_cleanup max_styles w2 (perform_decay now decay_rate w1 st)

/-- Model of `DataManager.perform_maintenance`: decay then cleanup on the in-memory
map, then mark the styles domain dirty and schedule a delayed save — no
immediate write. -/
def perform_maintenance (now : Rat) (decay_rate : Int) (max_styles : Nat)
    (st : DMState) : DMState :=
  schedule_save { st with
    styles := cleanupStyles max_styles (decayStyles now decay_rate st.styles),
    dirty_styles := true }

/-- Sum of proficiency over a record list (`sum(s.get("proficiency", 0) ...)`). -/
def sumProf (l : List Style) : Int := (l.map Style.proficiency).sum

/-- Insert into a descending-by-proficiency list, before
smaller-or-equal keys (stable placement for
`sorted(..., reverse=True)`). -/
def insertDesc (x : Style) : List Style → List Style
  | [] => [x]
  | y :: ys => if y.proficiency ≤ x.proficiency then x :: y :: ys else y :: insertDesc x ys

/-- Stable descending sort by proficiency, modelling
`sorted(styles, key=lambda x: x.get("proficiency", 0), reverse=True)`. -/
def sortDesc : List Style → List Style
  | [] => []
  | x :: xs => insertDesc x (sortDesc xs)

/-- The cumulative walk of `StyleSelector._weighted_random_selection`:
accumulate proficiency and return the first candidate whose cumulative
weight reaches the draw `r`, if any. -/
def pickWalk (r : Rat) (cumulative : Rat) : List Style → Option Style
  | [] => none
  | s :: rest =>
    if r ≤ cumulative + (s.proficiency : Rat) then some s
    else pickWalk r (cumulative + (s.proficiency : Rat)) rest

/-- Python `list.remove`: drop the first element equal to `s`. -/
def removeFirst (s : Style) : List Style → List Style
  | [] => []
  | x :: xs => if x = s then xs else x :: removeFirst s xs

/-- The draw loop of `_weighted_random_selection`: `fuel` iterations
remain, `i` indexes the random stream; stops early when no candidate is
left or the current total weight is `≤ 0`. -/
def weightedLoop (draws : Nat → Rat) : Nat → Nat → List Style → List String
  | 0, _, _ => []
  | fuel + 1, i, remaining =>
    if remaining.isEmpty then []
    else if sumProf remaining ≤ 0 then []
    else
      match pickWalk (draws i) 0 remaining with
      | some s => s.content :: weightedLoop draws fuel (i + 1) (removeFirst s remaining)
      | none => weightedLoop draws fuel (i + 1) remaining

/-- Model of `StyleSelector._weighted_random_selection`: sort descending by
proficiency; if the total weight is `≤ 0` fall back to the first
`max_count` contents in sorted order; otherwise run up to
`min(max_count, len(styles))` weighted draws without replacement. -/
def weighted_random_selection (styles : List Style) (max_count : Nat)
    (draws : Nat → Rat) : List String :=
  if styles.isEmpty then []
  else if sumProf (sortDesc styles) ≤ 0 then
    ((sortDesc styles).take max_count).map Style.content
  else weightedLoop draws (min max_count (sortDesc styles).length) 0 (sortDesc styles)

/-! ### Helper lemmas -/

lemma dictGet_dictSet_self {α : Type} (k : String) (v : α) (m : List (String × α)) :
    dictGet (dictSet k v m) k = some v := by
  induction m with
  | nil => simp [dictSet, dictGet]
  | cons kv rest ih =>
    obtain ⟨k', v'⟩ := kv
    by_cases h : k' = k
    · simp [dictSet, dictGet, h]
    · simp [dictSet, dictGet, h, ih]

lemma dictGet_map {α β : Type} (f : α → β) (m : List (String × α)) (k : String) :
    dictGet (m.map (fun kv => (kv.1, f kv.2))) k = (dictGet m k).map f := by
  induction m with
  | nil => simp [dictGet]
  | cons kv rest ih =>
    obtain ⟨k', v'⟩ := kv
    by_cases h : k' = k
    · simp [dictGet, h]
    · simp [dictGet, h, ih]

lemma pyInt_eq_floor (q : Rat) (h : 0 ≤ q) : pyInt q = ⌊q⌋ := by
  rw [pyInt, Rat.floor_def]
  exact Int.tdiv_eq_ediv (Rat.num_nonneg.mpr h) (by positivity)

lemma pyInt_zero : pyInt 0 = 0 := rfl

lemma decayStyle_now_eq (decay_rate : Int) (s : Style) :
    decayStyle s.last_updated decay_rate s = s := by
  simp [decayStyle, pyInt_zero]

/-! ### C1: upsert semantics of add_or_update_style -/

/-- C1: if the session already holds a record with matching
`(content, type)`, `add_or_update_style` bumps the first such record's
proficiency by 10 capped at 100 and refreshes `last_updated`; otherwise a
fresh record with proficiency 10 and `created_at = last_updated = now` is
appended.  Upserting the same pair twice into an empty session leaves
exactly one record with proficiency 20, and at the store level the
session's list is exactly the upserted list. -/
theorem upsert_add_or_update_spec (l : List Style) (c t : String) (now : Rat) :
    ((∀ s ∈ l, ¬(s.content = c ∧ s.type = t)) →
        upsertStyleList c t now l = l ++ [⟨c, t, 10, now, now⟩])
    ∧ (∀ l₁ s l₂, l = l₁ ++ s :: l₂ → (∀ u ∈ l₁, ¬(u.content = c ∧ u.type = t)) →
        s.content = c → s.type = t →
        upsertStyleList c t now l =
          l₁ ++ { s with proficiency := min 100 (s.proficiency + 10),
                         last_updated := now } :: l₂)
    ∧ upsertStyleList c t now (upsertStyleList c t now []) = [⟨c, t, 20, now, now⟩]
    ∧ (∀ st session, dictGet (add_or_update_style session c t now st).styles session =
        some (upsertStyleList c t now ((dictGet st.styles session).getD []))) := by
  refine ⟨?_, ?_, ?_, ?_⟩
  · intro hno
    induction l with
    | nil => simp [upsertStyleList]
    | cons s rest ih =>
      have hs : ¬(s.content = c ∧ s.type = t) := hno s (by simp)
      simp only [upsertStyleList, if_neg hs, List.cons_append]
      rw [ih (fun u hu => hno u (by simp [hu]))]
  · intro l₁ s l₂ hl hno hc ht
    subst hl
    induction l₁ with
    | nil => simp [upsertStyleList, hc, ht]
    | cons u l₁' ih =>
      have hu : ¬(u.content = c ∧ u.type = t) := hno u (by simp)
      simp only [List.cons_append, upsertStyleList, if_neg hu]
      exact congrArg (u :: ·) (ih (fun w hw => hno w (by simp [hw])))
  · have h10 : (min 100 (10 + 10) : Int) = 20 := by norm_num
    simp [upsertStyleList, h10]
  · intro st session
    simp only [add_or_update_style, schedule_save]
    exact dictGet_dictSet_self _ _ _

/-- Witness for C1: upserting into an empty list appends the fresh
record. -/
theorem upsert_add_or_update_spec_witness :
    upsertStyleList "a" "language_style" 0 [] = [⟨"a", "language_style", 10, 0, 0⟩] := by
  simpa using
    (upsert_add_or_update_spec [] "a" "language_style" 0).1 (by simp)

/-! ### C6: persistence effect of a maintenance pass -/

/-- C6 counterexample: the maintenance pass the scheduler actually runs
(`_perform_decay` then `_perform_cleanup`) writes the styles file
synchronously: starting from an empty styles file, the pass leaves the
file holding the serialized map, so the backing file changed before the
pass returned. -/
theorem run_maintenance_writes_file_counterexample :
    (run_maintenance_pass 0 1 100 true true
        ⟨[("s", [⟨"a", "language_style", 50, 0, 0⟩])], [], false, false, false, [], []⟩).styles_file
      = [("s", [⟨"a", "language_style", 50, 0, 0⟩])]
    ∧ ¬ ((run_maintenance_pass 0 1 100 true true
        ⟨[("s", [⟨"a", "language_style", 50, 0, 0⟩])], [], false, false, false, [], []⟩).styles_file
      = ([] : List (String × List Style))) := by
  have hd : decayStyle 0 1 (⟨"a", "language_style", 50, 0, 0⟩ : Style)
      = ⟨"a", "language_style", 50, 0, 0⟩ :=
    decayStyle_now_eq 1 ⟨"a", "language_style", 50, 0, 0⟩
  constructor
  · simp [run_maintenance_pass, perform_decay, perform_cleanup, decayStyles,
      cleanupStyles, cleanupList, save_styles, hd]
  · simp [run_maintenance_pass, perform_decay, perform_cleanup, decayStyles,
      cleanupStyles, cleanupList, save_styles, hd]

/-- C6 amended: `DataManager.perform_maintenance` (the debounced variant)
indeed performs no immediate write: both backing files are untouched, the
styles domain is marked dirty and a delayed save is pending. -/
theorem perform_maintenance_no_write (now : Rat) (rate : Int) (mx : Nat) (st : DMState) :
    (perform_maintenance now rate mx st).styles_file = st.styles_file
    ∧ (perform_maintenance now rate mx st).chat_history_file = st.chat_history_file
    ∧ (perform_maintenance now rate mx st).dirty_styles = true
    ∧ (perform_maintenance now rate mx st).save_timer = true := by
  simp [perform_maintenance, schedule_save]

/-! ### C7: save success and failure -/

/-- C7: a successful save serializes the in-memory map to the backing file
and clears that domain's dirty flag while leaving the map itself intact; a
failed save (caught `IOError`) changes nothing, leaving the dirty flag and
map for a later retry.  Both operations are total: no error escapes. -/
theorem save_error_handling (st : DMState) :
    (save_styles true st).dirty_styles = false
    ∧ (save_styles true st).styles_file = st.styles
    ∧ (save_styles true st).styles = st.styles
    ∧ save_styles false st = st
    ∧ (save_chat_history true st).dirty_chat_history = false
    ∧ (save_chat_history true st).chat_history_file = st.chat_history
    ∧ (save_chat_history true st).chat_history = st.chat_history
    ∧ save_chat_history false st = st := by
  simp [save_styles, save_chat_history]

/-! ### C9: get_chat_history and the limit = 0 slice -/

/-- C9 failing input: with one stored message and `limit = 0`,
`get_chat_history` returns the whole history (`[-0:]` is the full list),
not the last `min(0, 1) = 0` messages its docstring promises. -/
theorem get_chat_history_limit_zero_bug :
    get_chat_history "s" 0
        ⟨[], [("s", [⟨"alice", "hi", 0⟩])], false, false, false, [], []⟩
      = [⟨"alice", "hi", 0⟩]
    ∧ ¬ (get_chat_history "s" 0
        ⟨[], [("s", [⟨"alice", "hi", 0⟩])], false, false, false, [], []⟩
      = ([] : List ChatMessage)) := by
  constructor
  · decide
  · decide

/-! ### C10: clear_chat_history on an absent session -/

/-- C10: clearing the history of a session with no entry in the in-memory
history map is a complete no-op: the store state is returned unchanged, so
no entry is created, no dirty flag set, no save scheduled. -/
theorem clear_chat_history_noop_absent (st : DMState) (session : String)
    (h : dictGet st.chat_history session = none) :
    clear_chat_history session st = st := by
  simp [clear_chat_history, h]

/-- Witness for C10: on an empty store, clearing any session's history
changes nothing. -/
theorem clear_chat_history_noop_absent_witness :
    clear_chat_history "session" ⟨[], [], false, false, false, [], []⟩
      = ⟨[], [], false, false, false, [], []⟩ :=
  clear_chat_history_noop_absent _ _ (by decide)

/-! ### C2: proficiency stays within bounds -/

lemma pyInt_two : pyInt 2 = 2 := rfl

lemma upsert_bounds : ∀ (l : List Style) (c t : String) (now : Rat),
    (∀ s ∈ l, 0 ≤ s.proficiency ∧ s.proficiency ≤ 100) →
    ∀ s ∈ upsertStyleList c t now l, 0 ≤ s.proficiency ∧ s.proficiency ≤ 100 := by
  intro l c t now
  induction l with
  | nil =>
    intro _ s hs
    simp only [upsertStyleList, List.mem_singleton] at hs
    subst hs
    constructor
    · norm_num
    · norm_num
  | cons x rest ih =>
    intro hinv s hs
    by_cases hm : x.content = c ∧ x.type = t
    · simp only [upsertStyleList, if_pos hm, List.mem_cons] at hs
      rcases hs with h | h
      · have hx := hinv x (by simp)
        subst h
        constructor
        · exact le_min (by norm_num) (by omega)
        · exact min_le_left _ _
      · exact hinv s (by simp [h])
    · simp only [upsertStyleList, if_neg hm, List.mem_cons] at hs
      rcases hs with h | h
      · exact hinv s (by simp [h])
      · exact ih (fun u hu => hinv u (by simp [hu])) s h

lemma decay_bounds (now' : Rat) (rate : Int) (s : Style)
    (h : 0 ≤ s.proficiency ∧ s.proficiency ≤ 100) :
    0 ≤ (decayStyle now' rate s).proficiency ∧ (decayStyle now' rate s).proficiency ≤ 100 := by
  obtain ⟨h0, h100⟩ := h
  rw [decayStyle]
  by_cases hd : 0 < pyInt ((now' - s.last_updated) / 86400) * rate
  · simp only [if_pos hd]
    refine ⟨le_max_left _ _, max_le (by norm_num) (by omega)⟩
  · simp only [if_neg hd]
    exact ⟨h0, h100⟩

/-- C2: from any store in which every record's proficiency lies in
[0, 100], both an upsert (which clamps at 100 from above) and a decay pass
(which clamps at 0 from below and never increases proficiency) keep every
record's proficiency in [0, 100]. -/
theorem proficiency_bounds_preserved (l : List Style) (c t : String) (now now' : Rat)
    (rate : Int)
    (hinv : ∀ s ∈ l, 0 ≤ s.proficiency ∧ s.proficiency ≤ 100) :
    (∀ s ∈ upsertStyleList c t now l, 0 ≤ s.proficiency ∧ s.proficiency ≤ 100)
    ∧ (∀ s ∈ l.map (decayStyle now' rate), 0 ≤ s.proficiency ∧ s.proficiency ≤ 100) := by
  refine ⟨upsert_bounds l c t now hinv, ?_⟩
  intro s hs
  rw [List.mem_map] at hs
  obtain ⟨u, hu, rfl⟩ := hs
  exact decay_bounds now' rate u (hinv u hu)

/-- Witness for C2: upserting on a record at proficiency 95 caps it at
100, which still lies in bounds. -/
theorem proficiency_bounds_preserved_witness :
    0 ≤ (Style.mk "a" "t" 100 0 0).proficiency ∧ (Style.mk "a" "t" 100 0 0).proficiency ≤ 100 :=
  (proficiency_bounds_preserved [⟨"a", "t", 95, 0, 0⟩] "a" "t" 0 0 1 (by decide)).1
    ⟨"a", "t", 100, 0, 0⟩ (by decide)

/-! ### C3: the decay step -/

/-- C3: for a record whose `last_updated` is not in the future, the decay
step computes `decay_amount = floor((now - last_updated)/86400) * rate`;
exactly when it is positive, proficiency drops by it floored at 0 and
`last_updated` becomes `now`; when it is 0 the record is left entirely
unchanged.  With rate 1, a record 2 days stale with proficiency ≥ 2 loses
exactly 2 and gets `last_updated = now`. -/
theorem decay_step_spec (s : Style) (now : Rat) (rate : Int)
    (hpast : s.last_updated ≤ now) :
    (∀ d : Int, d = ⌊(now - s.last_updated) / 86400⌋ * rate →
      (0 < d → decayStyle now rate s =
          { s with proficiency := max 0 (s.proficiency - d), last_updated := now })
      ∧ (d = 0 → decayStyle now rate s = s))
    ∧ (now - s.last_updated = 2 * 86400 → 2 ≤ s.proficiency →
        decayStyle now 1 s =
          { s with proficiency := s.proficiency - 2, last_updated := now }) := by
  have hq : (0 : Rat) ≤ (now - s.last_updated) / 86400 :=
    div_nonneg (sub_nonneg.mpr hpast) (by norm_num)
  have hpy : pyInt ((now - s.last_updated) / 86400) = ⌊(now - s.last_updated) / 86400⌋ :=
    pyInt_eq_floor _ hq
  constructor
  · intro d hd
    constructor
    · intro hpos
      rw [decayStyle]
      rw [hpy, ← hd, if_pos hpos]
    · intro h0
      rw [decayStyle]
      rw [hpy, ← hd, h0]
      simp
  · intro h2 hprof
    have hdiv : (now - s.last_updated) / 86400 = 2 := by rw [h2]; norm_num
    have hmax : max 0 (s.proficiency - 2) = s.proficiency - 2 := by omega
    rw [decayStyle, hdiv, pyInt_two]
    norm_num [hmax]

/-- Witness for C3: a record two days stale at proficiency 50 decays to
48 with its clock reset. -/
theorem decay_step_spec_witness :
    decayStyle 172800 1 ⟨"a", "t", 50, 0, 0⟩
      = { (⟨"a", "t", 50, 0, 0⟩ : Style) with
          proficiency := (50 : Int) - 2
          last_updated := 172800 } :=
  (decay_step_spec ⟨"a", "t", 50, 0, 0⟩ 172800 1 (by norm_num)).2 (by norm_num) (by norm_num)

/-! ### C8: at most one record per (content, type) -/

lemma mem_upsert_key (c t : String) (now : Rat) :
    ∀ (l : List Style) (u : Style), u ∈ upsertStyleList c t now l →
      (u.content = c ∧ u.type = t) ∨ ∃ v ∈ l, u.content = v.content ∧ u.type = v.type := by
  intro l
  induction l with
  | nil =>
    intro u hu
    simp only [upsertStyleList, List.mem_singleton] at hu
    subst hu
    exact Or.inl ⟨rfl, rfl⟩
  | cons x rest ih =>
    intro u hu
    by_cases hm : x.content = c ∧ x.type = t
    · simp only [upsertStyleList, if_pos hm, List.mem_cons] at hu
      rcases hu with h | h
      · subst h
        exact Or.inr ⟨x, by simp, rfl, rfl⟩
      · exact Or.inr ⟨u, by simp [h], rfl, rfl⟩
    · simp only [upsertStyleList, if_neg hm, List.mem_cons] at hu
      rcases hu with h | h
      · subst h
        exact Or.inr ⟨u, by simp, rfl, rfl⟩
      · rcases ih u h with h1 | ⟨v, hv, hk⟩
        · exact Or.inl h1
        · exact Or.inr ⟨v, by simp [hv], hk⟩

/-- C8: if a session's list holds at most one record per
`(content, type)` pair, it still does after any upsert: the scan updates
the first match in place (keeping its key) and appends a fresh record only
when no match exists. -/
theorem upsert_unique_key_invariant (l : List Style) (c t : String) (now : Rat)
    (h : l.Pairwise (fun a b => ¬(a.content = b.content ∧ a.type = b.type))) :
    (upsertStyleList c t now l).Pairwise
      (fun a b => ¬(a.content = b.content ∧ a.type = b.type)) := by
  induction l with
  | nil => simp [upsertStyleList]
  | cons x rest ih =>
    rw [List.pairwise_cons] at h
    obtain ⟨hx, hrest⟩ := h
    by_cases hm : x.content = c ∧ x.type = t
    · simp only [upsertStyleList, if_pos hm]
      rw [List.pairwise_cons]
      refine ⟨?_, hrest⟩
      intro b hb hkey
      exact hx b hb ⟨hkey.1, hkey.2⟩
    · simp only [upsertStyleList, if_neg hm]
      rw [List.pairwise_cons]
      refine ⟨?_, ih hrest⟩
      intro b hb hkey
      rcases mem_upsert_key c t now rest b hb with h1 | ⟨v, hv, hk⟩
      · exact hm ⟨hkey.1.trans h1.1, hkey.2.trans h1.2⟩
      · exact hx v hv ⟨hkey.1.trans hk.1, hkey.2.trans hk.2⟩

/-- Witness for C8: the empty list trivially satisfies the invariant, and
so does its upsert. -/
theorem upsert_unique_key_invariant_witness :
    (upsertStyleList "a" "t" 0 []).Pairwise
      (fun a b => ¬(a.content = b.content ∧ a.type = b.type)) :=
  upsert_unique_key_invariant [] "a" "t" 0 (by simp)

/-! ### C4: cleanup retention -/

lemma insertAsc_perm (x : Style) (l : List Style) : (insertAsc x l).Perm (x :: l) := by
  induction l with
  | nil => simp [insertAsc]
  | cons y ys ih =>
    rw [insertAsc]
    by_cases h : x.proficiency ≤ y.proficiency
    · rw [if_pos h]
    · rw [if_neg h]
      exact (ih.cons y).trans (List.Perm.swap x y ys)

lemma sortAsc_perm (l : List Style) : (sortAsc l).Perm l := by
  induction l with
  | nil => simp [sortAsc]
  | cons x xs ih =>
    rw [sortAsc]
    exact (insertAsc_perm x (sortAsc xs)).trans (ih.cons x)

lemma mem_insertAsc {a x : Style} {l : List Style} :
    a ∈ insertAsc x l ↔ a = x ∨ a ∈ l := by
  rw [(insertAsc_perm x l).mem_iff, List.mem_cons]

lemma insertAsc_sorted (x : Style) (l : List Style)
    (h : l.Pairwise (fun a b => a.proficiency ≤ b.proficiency)) :
    (insertAsc x l).Pairwise (fun a b => a.proficiency ≤ b.proficiency) := by
  induction l with
  | nil => simp [insertAsc]
  | cons y ys ih =>
    rw [List.pairwise_cons] at h
    obtain ⟨hy, hys⟩ := h
    rw [insertAsc]
    by_cases hxy : x.proficiency ≤ y.proficiency
    · rw [if_pos hxy]
      rw [List.pairwise_cons]
      refine ⟨?_, List.pairwise_cons.mpr ⟨hy, hys⟩⟩
      intro b hb
      rcases List.mem_cons.mp hb with rfl | hb'
      · exact hxy
      · exact hxy.trans (hy b hb')
    · rw [if_neg hxy]
      rw [List.pairwise_cons]
      refine ⟨?_, ih hys⟩
      intro b hb
      rcases mem_insertAsc.mp hb with rfl | hb'
      · exact le_of_lt (lt_of_not_le hxy)
      · exact hy b hb'

lemma sortAsc_sorted (l : List Style) :
    (sortAsc l).Pairwise (fun a b => a.proficiency ≤ b.proficiency) := by
  induction l with
  | nil => simp [sortAsc]
  | cons x xs ih =>
    rw [sortAsc]
    exact insertAsc_sorted x (sortAsc xs) ih

lemma filter_insertAsc (x : Style) (l : List Style) (v : Int) :
    (insertAsc x l).filter (fun s => s.proficiency = v)
      = if x.proficiency = v
          then x :: l.filter (fun s => s.proficiency = v)
          else l.filter (fun s => s.proficiency = v) := by
  induction l with
  | nil =>
    by_cases hx : x.proficiency = v <;> simp [insertAsc, List.filter, hx]
  | cons y ys ih =>
    rw [insertAsc]
    by_cases hxy : x.proficiency ≤ y.proficiency
    · rw [if_pos hxy]
      by_cases hx : x.proficiency = v <;> simp [List.filter_cons, hx]
    · rw [if_neg hxy]
      by_cases hy : y.proficiency = v
      · have hx : ¬ x.proficiency = v := fun hh => hxy (le_of_eq (hy ▸ hh))
        simp [List.filter_cons, hy, hx, ih]
      · by_cases hx : x.proficiency = v <;> simp [List.filter_cons, hy, hx, ih]

lemma filter_sortAsc (l : List Style) (v : Int) :
    (sortAsc l).filter (fun s => s.proficiency = v)
      = l.filter (fun s => s.proficiency = v) := by
  induction l with
  | nil => simp [sortAsc]
  | cons x xs ih =>
    rw [sortAsc, filter_insertAsc]
    by_cases hx : x.proficiency = v <;> simp [List.filter_cons, hx, ih]

lemma pySliceLast {α : Type} (mx : Nat) (hmx : 1 ≤ mx) (L : List α) :
    pySliceFrom (-(mx : Int)) L = L.drop (L.length - mx) := by
  rw [pySliceFrom, if_pos (by omega : -(mx : Int) < 0)]
  simp

lemma cleanupList_of_le (mx : Nat) (l : List Style)
    (h : ¬ mx < (l.filter (fun s => 0 < s.proficiency)).length) :
    cleanupList mx l = l.filter (fun s => 0 < s.proficiency) := by
  rw [cleanupList, if_neg h]

lemma cleanupList_of_lt (mx : Nat) (l : List Style) (hmx : 1 ≤ mx)
    (h : mx < (l.filter (fun s => 0 < s.proficiency)).length) :
    cleanupList mx l = (sortAsc (l.filter (fun s => 0 < s.proficiency))).drop
        ((sortAsc (l.filter (fun s => 0 < s.proficiency))).length - mx) := by
  rw [cleanupList, if_pos h, pySliceLast mx hmx]

/-- C4 counterexample: with `max_styles_per_session = 0` the capacity
slice `sorted_styles[-0:]` keeps the whole list, so a session holding one
surviving record still holds it afterwards, violating the claimed bound
`count ≤ max_styles_per_session`. -/
theorem cleanup_capacity_zero_counterexample :
    cleanupList 0 [⟨"a", "language_style", 5, 0, 0⟩] = [⟨"a", "language_style", 5, 0, 0⟩]
    ∧ ¬ ((cleanupList 0 [⟨"a", "language_style", 5, 0, 0⟩]).length ≤ 0) := by
  constructor
  · decide
  · decide

/-- C4 amended (`max_styles_per_session ≥ 1`): after a cleanup pass no
exhausted record remains and at most `max_styles` records survive; below
the cap the survivors are exactly the filtered list; above it exactly
`max_styles` records of highest proficiency are retained (every dropped
record's proficiency is at most every kept one's) and, among records of
equal proficiency, the kept ones form a suffix of the filtered list in
retained insertion order (stability of the ascending sort).  The spec's
`[5, 50, 80]` example retains `[50, 80]`, and the map-level pass applies
this to every session. -/
theorem cleanup_spec (mx : Nat) (l : List Style) (hmx : 1 ≤ mx) :
    (∀ s ∈ cleanupList mx l, s.proficiency ≠ 0)
    ∧ (cleanupList mx l).length ≤ mx
    ∧ ((cleanupList mx l : Multiset Style) ≤ (l : Multiset Style))
    ∧ ((l.filter (fun s => 0 < s.proficiency)).length ≤ mx →
        cleanupList mx l = l.filter (fun s => 0 < s.proficiency))
    ∧ (mx < (l.filter (fun s => 0 < s.proficiency)).length →
        (cleanupList mx l).length = mx
        ∧ ∃ dropped, sortAsc (l.filter (fun s => 0 < s.proficiency))
              = dropped ++ cleanupList mx l
            ∧ ∀ a ∈ dropped, ∀ b ∈ cleanupList mx l, a.proficiency ≤ b.proficiency)
    ∧ (∀ v : Int, ((cleanupList mx l).filter (fun s => s.proficiency = v)).IsSuffix
          ((l.filter (fun s => 0 < s.proficiency)).filter (fun s => s.proficiency = v)))
    ∧ cleanupList 2 [⟨"a", "t", 5, 0, 0⟩, ⟨"b", "t", 50, 0, 0⟩, ⟨"c", "t", 80, 0, 0⟩]
        = [⟨"b", "t", 50, 0, 0⟩, ⟨"c", "t", 80, 0, 0⟩]
    ∧ (∀ k (m : List (String × List Style)),
        dictGet (cleanupStyles mx m) k = (dictGet m k).map (cleanupList mx)) := by
  have hmem : ∀ s ∈ cleanupList mx l, s ∈ l.filter (fun u => 0 < u.proficiency) := by
    intro s hs
    by_cases h : mx < (l.filter (fun u => 0 < u.proficiency)).length
    · rw [cleanupList_of_lt mx l hmx h] at hs
      exact (sortAsc_perm _).subset ((List.drop_suffix _ _).subset hs)
    · rwa [cleanupList_of_le mx l h] at hs
  refine ⟨?_, ?_, ?_, ?_, ?_, ?_, ?_, ?_⟩
  · intro s hs
    have := List.of_mem_filter (hmem s hs)
    have hpos : 0 < s.proficiency := by simpa using this
    omega
  · by_cases h : mx < (l.filter (fun u => 0 < u.proficiency)).length
    · rw [cleanupList_of_lt mx l hmx h, List.length_drop]
      have hlen := (sortAsc_perm (l.filter (fun u => 0 < u.proficiency))).length_eq
      omega
    · rw [cleanupList_of_le mx l h]
      omega
  · have h2 : ((l.filter (fun u => 0 < u.proficiency) : List Style) : Multiset Style)
        ≤ (l : Multiset Style) :=
      Multiset.coe_le.mpr (List.filter_sublist l).subperm
    by_cases h : mx < (l.filter (fun u => 0 < u.proficiency)).length
    · rw [cleanupList_of_lt mx l hmx h]
      have h1 : (((sortAsc (l.filter (fun u => 0 < u.proficiency))).drop
            ((sortAsc (l.filter (fun u => 0 < u.proficiency))).length - mx) : List Style)
            : Multiset Style)
          ≤ ((l.filter (fun u => 0 < u.proficiency) : List Style) : Multiset Style) := by
        rw [← Multiset.coe_eq_coe.mpr (sortAsc_perm (l.filter (fun u => 0 < u.proficiency)))]
        exact Multiset.coe_le.mpr (List.drop_sublist _ _).subperm
      exact le_trans h1 h2
    · rw [cleanupList_of_le mx l h]
      exact h2
  · intro h
    exact cleanupList_of_le mx l (by omega)
  · intro h
    have hlen := (sortAsc_perm (l.filter (fun u => 0 < u.proficiency))).length_eq
    constructor
    · rw [cleanupList_of_lt mx l hmx h, List.length_drop]
      omega
    · refine ⟨(sortAsc (l.filter (fun u => 0 < u.proficiency))).take
        ((sortAsc (l.filter (fun u => 0 < u.proficiency))).length - mx), ?_, ?_⟩
      · rw [cleanupList_of_lt mx l hmx h, List.take_append_drop]
      · intro a ha b hb
        rw [cleanupList_of_lt mx l hmx h] at hb
        have hp := sortAsc_sorted (l.filter (fun u => 0 < u.proficiency))
        rw [← List.take_append_drop
          ((sortAsc (l.filter (fun u => 0 < u.proficiency))).length - mx)
          (sortAsc (l.filter (fun u => 0 < u.proficiency)))] at hp
        exact (List.pairwise_append.mp hp).2.2 a ha b hb
  · intro v
    by_cases h : mx < (l.filter (fun u => 0 < u.proficiency)).length
    · rw [cleanupList_of_lt mx l hmx h, ← filter_sortAsc (l.filter (fun u => 0 < u.proficiency)) v]
      exact List.IsSuffix.filter _ (List.drop_suffix _ _)
    · rw [cleanupList_of_le mx l h]
  · decide
  · intro k m
    exact dictGet_map (cleanupList mx) m k

/-- Witness for C4: the spec's concrete capacity example at cap 2. -/
theorem cleanup_spec_witness :
    cleanupList 2 [⟨"a", "t", 5, 0, 0⟩, ⟨"b", "t", 50, 0, 0⟩, ⟨"c", "t", 80, 0, 0⟩]
      = [⟨"b", "t", 50, 0, 0⟩, ⟨"c", "t", 80, 0, 0⟩] :=
  (cleanup_spec 2 [⟨"a", "t", 5, 0, 0⟩, ⟨"b", "t", 50, 0, 0⟩, ⟨"c", "t", 80, 0, 0⟩]
    (by norm_num)).2.2.2.2.2.2.1

/-! ### C5: weighted selection without replacement -/

lemma insertDesc_perm (x : Style) (l : List Style) : (insertDesc x l).Perm (x :: l) := by
  induction l with
  | nil => simp [insertDesc]
  | cons y ys ih =>
    rw [insertDesc]
    by_cases h : y.proficiency ≤ x.proficiency
    · rw [if_pos h]
    · rw [if_neg h]
      exact (ih.cons y).trans (List.Perm.swap x y ys)

lemma sortDesc_perm (l : List Style) : (sortDesc l).Perm l := by
  induction l with
  | nil => simp [sortDesc]
  | cons x xs ih =>
    rw [sortDesc]
    exact (insertDesc_perm x (sortDesc xs)).trans (ih.cons x)

lemma sumProf_sortDesc (l : List Style) : sumProf (sortDesc l) = sumProf l :=
  ((sortDesc_perm l).map Style.proficiency).sum_eq

lemma pickWalk_mem : ∀ (l : List Style) (r c : Rat) {s : Style},
    pickWalk r c l = some s → s ∈ l := by
  intro l
  induction l with
  | nil =>
    intro r c s h
    exact absurd h (by simp [pickWalk])
  | cons x xs ih =>
    intro r c s h
    rw [pickWalk] at h
    by_cases hc : r ≤ c + (x.proficiency : Rat)
    · rw [if_pos hc] at h
      cases h
      exact List.mem_cons_self x xs
    · rw [if_neg hc] at h
      exact List.mem_cons_of_mem x (ih _ _ h)

lemma removeFirst_cons_content (s : Style) : ∀ (l : List Style), s ∈ l →
    (s.content ::ₘ (((removeFirst s l).map Style.content : List String) : Multiset String))
      = ((l.map Style.content : List String) : Multiset String) := by
  intro l
  induction l with
  | nil => intro h; simp at h
  | cons x xs ih =>
    intro h
    rw [removeFirst]
    by_cases hx : x = s
    · rw [if_pos hx]
      subst hx
      rw [List.map_cons, ← Multiset.cons_coe]
    · rw [if_neg hx]
      have hs : s ∈ xs := by
        rcases List.mem_cons.mp h with h1 | h1
        · exact absurd h1.symm hx
        · exact h1
      rw [List.map_cons, List.map_cons, ← Multiset.cons_coe, ← Multiset.cons_coe,
        Multiset.cons_swap, ih hs]

lemma weightedLoop_subperm (draws : Nat → Rat) :
    ∀ (fuel i : Nat) (rem : List Style),
      ((weightedLoop draws fuel i rem : List String) : Multiset String)
        ≤ ((rem.map Style.content : List String) : Multiset String) := by
  intro fuel
  induction fuel with
  | zero =>
    intro i rem
    simp [weightedLoop]
  | succ n ih =>
    intro i rem
    rw [weightedLoop]
    by_cases h1 : rem.isEmpty
    · rw [if_pos h1]; simp
    · rw [if_neg h1]
      by_cases h2 : sumProf rem ≤ 0
      · rw [if_pos h2]; simp
      · rw [if_neg h2]
        cases hp : pickWalk (draws i) 0 rem with
        | none => exact ih (i + 1) rem
        | some s =>
          rw [← removeFirst_cons_content s rem (pickWalk_mem rem _ _ hp),
            ← Multiset.cons_coe]
          exact Multiset.cons_le_cons s.content (ih (i + 1) (removeFirst s rem))

lemma weightedLoop_length (draws : Nat → Rat) :
    ∀ (fuel i : Nat) (rem : List Style),
      (weightedLoop draws fuel i rem).length ≤ fuel := by
  intro fuel
  induction fuel with
  | zero =>
    intro i rem
    simp [weightedLoop]
  | succ n ih =>
    intro i rem
    rw [weightedLoop]
    by_cases h1 : rem.isEmpty
    · rw [if_pos h1]; simp
    · rw [if_neg h1]
      by_cases h2 : sumProf rem ≤ 0
      · rw [if_pos h2]; simp
      · rw [if_neg h2]
        cases hp : pickWalk (draws i) 0 rem with
        | none => exact le_trans (ih (i + 1) rem) (Nat.le_succ n)
        | some s =>
          rw [List.length_cons]
          exact Nat.succ_le_succ (ih (i + 1) (removeFirst s rem))

/-- C5 counterexample: with candidates of proficiency 5 and 0, cap 2, and
a first draw of 1, the code selects the 5-candidate, then finds the
remaining total weight `≤ 0` and stops with `["a"]`; it does not append
the remaining candidate `"b"` in sorted order as the claim requires. -/
theorem weighted_selection_midloop_counterexample :
    weighted_random_selection [⟨"a", "t", 5, 0, 0⟩, ⟨"b", "t", 0, 0, 0⟩] 2 (fun _ => 1)
      = ["a"]
    ∧ ¬ (weighted_random_selection [⟨"a", "t", 5, 0, 0⟩, ⟨"b", "t", 0, 0, 0⟩] 2 (fun _ => 1)
      = ["a", "b"]) := by
  have h : weighted_random_selection [⟨"a", "t", 5, 0, 0⟩, ⟨"b", "t", 0, 0, 0⟩] 2 (fun _ => 1)
      = ["a"] := by
    norm_num [weighted_random_selection, sortDesc, insertDesc, sumProf, weightedLoop,
      pickWalk, removeFirst]
  exact ⟨h, by simp [h]⟩

/-- C5 amended: weighted selection without replacement returns at most
`max_count` contents, drawn from distinct input records (its result is a
sub-multiset of the input contents); when the total proficiency of the
candidates is `≤ 0` before any draw it deterministically returns the first
`max_count` contents in descending sorted order (so all-zero candidates
give the sorted fallback); but when the still-eligible total drops to
`≤ 0` only after some draws, the loop stops and returns just the already
selected contents, without appending the remaining candidates. -/
theorem weighted_selection_spec (styles : List Style) (max_count : Nat) (draws : Nat → Rat) :
    (weighted_random_selection styles max_count draws).length ≤ max_count
    ∧ ((weighted_random_selection styles max_count draws : List String) : Multiset String)
        ≤ ((styles.map Style.content : List String) : Multiset String)
    ∧ (sumProf styles ≤ 0 →
        weighted_random_selection styles max_count draws
          = ((sortDesc styles).take max_count).map Style.content)
    ∧ (∀ (fuel i : Nat) (rem : List Style), sumProf rem ≤ 0 →
        weightedLoop draws (fuel + 1) i rem = []) := by
  have hcoe : (((sortDesc styles).map Style.content : List String) : Multiset String)
      = ((styles.map Style.content : List String) : Multiset String) :=
    Multiset.coe_eq_coe.mpr ((sortDesc_perm styles).map Style.content)
  have hloop0 : ∀ (fuel i : Nat) (rem : List Style), sumProf rem ≤ 0 →
      weightedLoop draws (fuel + 1) i rem = [] := by
    intro fuel i rem hsum
    rw [weightedLoop]
    by_cases h1 : rem.isEmpty
    · rw [if_pos h1]
    · rw [if_neg h1, if_pos hsum]
  refine ⟨?_, ?_, ?_, hloop0⟩
  · rw [weighted_random_selection]
    by_cases he : styles.isEmpty
    · rw [if_pos he]
      simp
    · rw [if_neg he]
      by_cases ht : sumProf (sortDesc styles) ≤ 0
      · rw [if_pos ht]
        rw [List.length_map, List.length_take]
        exact min_le_left _ _
      · rw [if_neg ht]
        exact le_trans (weightedLoop_length draws _ 0 (sortDesc styles)) (min_le_left _ _)
  · rw [weighted_random_selection]
    by_cases he : styles.isEmpty
    · rw [if_pos he]
      simp
    · rw [if_neg he]
      by_cases ht : sumProf (sortDesc styles) ≤ 0
      · rw [if_pos ht, ← hcoe]
        exact Multiset.coe_le.mpr
          (((List.take_sublist max_count (sortDesc styles)).map Style.content).subperm)
      · rw [if_neg ht, ← hcoe]
        exact weightedLoop_subperm draws _ 0 (sortDesc styles)
  · intro hsum
    rw [weighted_random_selection]
    by_cases he : styles.isEmpty
    · rw [if_pos he]
      rw [List.isEmpty_iff.mp he]
      simp [sortDesc]
    · rw [if_neg he, if_pos (by rwa [sumProf_sortDesc])]

/-- Witness for C5: a single all-zero candidate falls back to the sorted
prefix deterministically. -/
theorem weighted_selection_spec_witness :
    weighted_random_selection [⟨"a", "t", 0, 0, 0⟩] 1 (fun _ => 0)
      = ((sortDesc [⟨"a", "t", 0, 0, 0⟩]).take 1).map Style.content :=
  (weighted_selection_spec [⟨"a", "t", 0, 0, 0⟩] 1 (fun _ => 0)).2.2.1 (by decide)
